import Mathlib

/-!
Verification development for the DeepRL repository (A3C training loop,
environment runner, and numeric utilities).  Python code is shallowly
embedded: numeric tensors become lists of rationals, stateful loops become
explicit recursion or a step relation, fallible code returns `Except`.
-/

namespace DeepRL

/-! ## Return computation (`misc/utils.py`, `discount_rewards`)

`discount_rewards(x, gamma)` is `signal.lfilter([1], [1, -gamma], x[::-1], axis=0)[::-1]`.
With numerator `[1]` and denominator `[1, -gamma]` the filter computes
`y[k] = x[k] + gamma * y[k-1]` with zero initial condition; the input is
reversed before filtering and the output reversed back. -/

/-- The IIR filter `y[k] = x[k] + gamma * y[k-1]` applied left to right,
with `prev` the carried previous output (initially 0). This is
`scipy.signal.lfilter([1], [1, -gamma], ·)`. -/
def lfilterDiscount (gamma : ℚ) : ℚ → List ℚ → List ℚ
  | _, [] => []
  | prev, x :: xs => (x + gamma * prev) :: lfilterDiscount gamma (x + gamma * prev) xs

/-- `discount_rewards` from `misc/utils.py`: reverse, filter, reverse back. -/
def discount_rewards (x : List ℚ) (gamma : ℚ) : List ℚ :=
  (lfilterDiscount gamma 0 x.reverse).reverse

/-- Direct backward recursion `G[i] = R[i] + gamma * G[i+1]`, `G[n-1] = R[n-1]`;
used to reason about `discount_rewards`. -/
def discountRec : List ℚ → ℚ → List ℚ
  | [], _ => []
  | r :: rs, gamma => (r + gamma * (discountRec rs gamma).headD 0) :: discountRec rs gamma

theorem lfilterDiscount_append (gamma prev : ℚ) (xs : List ℚ) (x : ℚ) :
    lfilterDiscount gamma prev (xs ++ [x]) =
      lfilterDiscount gamma prev xs ++
        [x + gamma * (lfilterDiscount gamma prev xs).getLastD prev] := by
  induction xs generalizing prev with
  | nil => simp [lfilterDiscount]
  | cons y ys ih =>
      simp only [List.cons_append, lfilterDiscount, List.append_eq, ih, List.getLastD_cons]

theorem getLastD_reverse (l : List ℚ) (d : ℚ) : l.reverse.getLastD d = l.headD d := by
  cases l with
  | nil => rfl
  | cons x xs => simp [List.getLastD_concat]

theorem discount_rewards_eq_discountRec (x : List ℚ) (gamma : ℚ) :
    discount_rewards x gamma = discountRec x gamma := by
  induction x with
  | nil => rfl
  | cons r rs ih =>
      have hrev : (r :: rs).reverse = rs.reverse ++ [r] := by simp
      have hlast : (lfilterDiscount gamma 0 rs.reverse).getLastD 0
          = (discountRec rs gamma).headD 0 := by
        have : lfilterDiscount gamma 0 rs.reverse = (discount_rewards rs gamma).reverse := by
          simp [discount_rewards]
        rw [this, ih, getLastD_reverse]
      simp only [discount_rewards, hrev, lfilterDiscount_append, hlast]
      simp only [List.reverse_append, List.reverse_cons, List.reverse_nil, List.nil_append,
        List.cons_append, List.nil_append]
      simp [discountRec, ← ih, discount_rewards]

theorem discountRec_length (x : List ℚ) (gamma : ℚ) :
    (discountRec x gamma).length = x.length := by
  induction x with
  | nil => rfl
  | cons r rs ih => simp [discountRec, ih]

theorem discount_rewards_length (x : List ℚ) (gamma : ℚ) :
    (discount_rewards x gamma).length = x.length := by
  rw [discount_rewards_eq_discountRec]; exact discountRec_length x gamma

theorem headD_eq_getD (l : List ℚ) : l.headD 0 = l.getD 0 0 := by
  cases l <;> rfl

theorem discountRec_recurrence (x : List ℚ) (gamma : ℚ) (i : ℕ)
    (hi : i + 1 < x.length) :
    (discountRec x gamma).getD i 0 = x.getD i 0 + gamma * (discountRec x gamma).getD (i + 1) 0 := by
  induction x generalizing i with
  | nil => simp at hi
  | cons r rs ih =>
      cases i with
      | zero =>
          simp only [discountRec, List.getD_cons_zero, List.getD_cons_succ]
          rw [headD_eq_getD]
      | succ j =>
          simp only [discountRec, List.getD_cons_succ]
          exact ih j (by simpa using hi)

theorem discountRec_last (x : List ℚ) (gamma : ℚ) (hx : x ≠ []) :
    (discountRec x gamma).getD (x.length - 1) 0 = x.getD (x.length - 1) 0 := by
  induction x with
  | nil => exact absurd rfl hx
  | cons r rs ih =>
      cases rs with
      | nil => simp [discountRec]
      | cons s ss =>
          have hne : (s :: ss) ≠ ([] : List ℚ) := by simp
          have hlen : (r :: s :: ss).length - 1 = ((s :: ss).length - 1) + 1 := by
            simp
          rw [hlen]
          simp only [discountRec, List.getD_cons_succ]
          exact ih hne

theorem discountRec_gamma_zero (x : List ℚ) : discountRec x 0 = x := by
  induction x with
  | nil => rfl
  | cons r rs ih => simp [discountRec, ih]

/-- C1: `discount_rewards` returns a sequence of the same length satisfying the
backward recursion `G[n-1] = R[n-1]`, `G[i] = R[i] + γ·G[i+1]`; with γ = 0 it is
the identity; and on `R = [1,1,1]`, γ = 9/10 it returns `[2.71, 1.9, 1.0]`. -/
theorem discount_rewards_spec (R : List ℚ) (gamma : ℚ)
    (_hg0 : 0 < gamma) (_hg1 : gamma < 1) :
    (discount_rewards R gamma).length = R.length ∧
    (R ≠ [] → (discount_rewards R gamma).getD (R.length - 1) 0 = R.getD (R.length - 1) 0) ∧
    (∀ i, i + 1 < R.length →
      (discount_rewards R gamma).getD i 0
        = R.getD i 0 + gamma * (discount_rewards R gamma).getD (i + 1) 0) ∧
    (∀ S : List ℚ, discount_rewards S 0 = S) ∧
    discount_rewards [1, 1, 1] (9 / 10) = [271 / 100, 19 / 10, 1] := by
  refine ⟨discount_rewards_length R gamma, ?_, ?_, ?_, ?_⟩
  · intro hR
    rw [discount_rewards_eq_discountRec]
    exact discountRec_last R gamma hR
  · intro i hi
    rw [discount_rewards_eq_discountRec]
    exact discountRec_recurrence R gamma i hi
  · intro S
    rw [discount_rewards_eq_discountRec]
    exact discountRec_gamma_zero S
  · rw [discount_rewards_eq_discountRec]
    norm_num [discountRec]

/-- Witness for C1 at `R = [1,1,1]`, γ = 9/10: the recursion facts hold there. -/
theorem discount_rewards_spec_witness :
    (discount_rewards [1, 1, 1] (9 / 10)).length = ([1, 1, 1] : List ℚ).length ∧
    discount_rewards [1, 1, 1] (9 / 10) = [271 / 100, 19 / 10, 1] :=
  ⟨(discount_rewards_spec [1, 1, 1] (9 / 10) (by norm_num) (by norm_num)).1,
   (discount_rewards_spec [1, 1, 1] (9 / 10) (by norm_num) (by norm_num)).2.2.2.2⟩

/-- C8: `discount_rewards` on the empty reward sequence returns the empty
sequence (length 0 in, length 0 out), for any γ. -/
theorem discount_rewards_empty (gamma : ℚ) : discount_rewards [] gamma = [] := rfl

/-! ## Bootstrap before discounting (`agents/a3c.py`, `A3CThread.run`)

Line 303: `trajectory["reward"][-1] = 0 if trajectory["done"] else
self.get_critic_value(trajectory["state"][None, -1])[0]` — the final recorded
reward is overwritten in BOTH cases: by the critic's value estimate when the
trajectory was cap-truncated, and by 0 when it terminated naturally. -/

/-- In-place assignment `l[-1] = y` on a Python list (no-op on `[]`, which in
the source would raise; the call site always passes a nonempty list). -/
def setLast (l : List ℚ) (y : ℚ) : List ℚ :=
  if l = [] then [] else l.dropLast ++ [y]

/-- The reward sequence handed to `discount_rewards` by `A3CThread.run`:
`trajectory["reward"][-1] = 0 if trajectory["done"] else critic_value`. -/
def bootstrapReward (rewards : List ℚ) (done : Bool) (critic_value : ℚ) : List ℚ :=
  setLast rewards (if done then 0 else critic_value)

theorem setLast_length (l : List ℚ) (y : ℚ) (h : l ≠ []) :
    (setLast l y).length = l.length := by
  have hl : 1 ≤ l.length := List.length_pos.mpr h
  simp only [setLast, if_neg h, List.length_append, List.length_dropLast,
    List.length_singleton]
  omega

theorem setLast_getD_of_lt (l : List ℚ) (y : ℚ) (i : ℕ) (hi : i + 1 < l.length) :
    (setLast l y).getD i 0 = l.getD i 0 := by
  have h : l ≠ [] := by
    intro hnil; rw [hnil] at hi; simp at hi
  have hi' : i < l.dropLast.length := by
    rw [List.length_dropLast]; omega
  have hi'' : i < l.length := by omega
  rw [setLast, if_neg h, List.getD_append _ _ _ _ hi', List.getD_eq_getElem _ _ hi',
    List.getElem_dropLast, List.getD_eq_getElem _ _ hi'']

theorem setLast_getD_last (l : List ℚ) (y : ℚ) (h : l ≠ []) :
    (setLast l y).getD (l.length - 1) 0 = y := by
  have hl : 1 ≤ l.length := List.length_pos.mpr h
  rw [setLast, if_neg h, List.getD_eq_getElem?_getD, List.getElem?_append]
  have hnot : ¬(l.length - 1 < l.dropLast.length) := by
    rw [List.length_dropLast]; omega
  rw [if_neg hnot, List.length_dropLast]
  simp

/-- C2 counterexample: a naturally-terminated trajectory with final recorded
reward 1 is handed `[0]`, not the recorded `[1]`, to Return Computation. -/
theorem bootstrap_natural_termination_counterexample :
    bootstrapReward [1] true 5 = [0] ∧ bootstrapReward [1] true 5 ≠ [1] :=
  ⟨by decide, by decide⟩

/-- C2 (amended): the sequence handed to Return Computation equals the recorded
rewards with only the final reward replaced — by the local value-estimate of the
final observed state when the trajectory was cap-truncated, and by 0 when it
terminated naturally. -/
theorem bootstrap_spec (rewards : List ℚ) (done : Bool) (v : ℚ) (h : rewards ≠ []) :
    (bootstrapReward rewards done v).length = rewards.length ∧
    (∀ i, i + 1 < rewards.length →
      (bootstrapReward rewards done v).getD i 0 = rewards.getD i 0) ∧
    (bootstrapReward rewards done v).getD (rewards.length - 1) 0
      = (if done then 0 else v) :=
  ⟨setLast_length rewards _ h,
   fun i hi => setLast_getD_of_lt rewards _ i hi,
   setLast_getD_last rewards _ h⟩

/-- Witness for C2 (amended) at `rewards = [1, 2]`, `done = false`, `v = 7`. -/
theorem bootstrap_spec_witness :
    (bootstrapReward [1, 2] false 7).getD 1 0 = 7 := by
  simpa using (bootstrap_spec [1, 2] false 7 (by decide)).2.2

/-! ## Gradient clipping (`agents/a3c.py`, `A3CThread.__init__`)

If `clip_gradients` is set, each gradient tensor is passed through
`tf.clip_by_value(grad, -gradient_clip_value, gradient_clip_value)`;
otherwise `processed_grads = grads` unmodified. -/

/-- `tf.clip_by_value(t, lo, hi) = min(max(t, lo), hi)`, componentwise;
here one component. -/
def clip_by_value (t lo hi : ℚ) : ℚ := min (max t lo) hi

/-- The `processed_grads` computed in `A3CThread.__init__`: a gradient is a
list of tensors, each a list of components. -/
def processedGrads (clip_gradients : Bool) (gradient_clip_value : ℚ)
    (grads : List (List ℚ)) : List (List ℚ) :=
  if clip_gradients then
    grads.map (fun grad =>
      grad.map (fun g => clip_by_value g (-gradient_clip_value) gradient_clip_value))
  else
    grads

/-- C4: with clipping enabled and bound `B ≥ 0`, every component of every
processed gradient tensor lies in `[-B, B]`; with clipping disabled the
gradients are passed through unmodified. -/
theorem gradient_clip_spec (B : ℚ) (grads : List (List ℚ)) (hB : 0 ≤ B) :
    (∀ g ∈ processedGrads true B grads, ∀ x ∈ g, -B ≤ x ∧ x ≤ B) ∧
    processedGrads false B grads = grads := by
  constructor
  · intro g hg x hx
    simp only [processedGrads, if_pos, List.mem_map] at hg
    obtain ⟨grad, _, rfl⟩ := hg
    simp only [List.mem_map] at hx
    obtain ⟨y, _, rfl⟩ := hx
    refine ⟨le_min (le_max_right y (-B)) (by linarith), min_le_right _ _⟩
  · rfl

/-- Witness for C4 at `B = 1`, `grads = [[5, -7]]`: disabled clipping is the
identity there (hypothesis `0 ≤ 1` discharged). -/
theorem gradient_clip_spec_witness :
    processedGrads false 1 [[5, -7]] = [[5, -7]] :=
  (gradient_clip_spec 1 [[5, -7]] (by norm_num)).2

/-! ## Epsilon substitution in the discrete policy-gradient loss
(`agents/a3c.py`, `ActorNetworkDiscrete` / `ActorCriticNetworkDiscreteCNN`)

`tf.where(tf.equal(good_probabilities, 0.0), fill(1e-30), good_probabilities)`
replaces exactly-zero taken-action probabilities by `1e-30` before `tf.log`. -/

/-- The argument handed to `tf.log` in both discrete loss constructions. -/
def substituteZeroProbs (good_probabilities : List ℚ) : List ℚ :=
  good_probabilities.map (fun p => if p = 0 then 1 / 10 ^ 30 else p)

/-- C9: probabilities equal to zero are replaced by `1e-30` and nonzero ones
kept, so under nonnegative inputs (softmax outputs) every argument of the
logarithm in the loss is strictly positive — hence each `log` is finite. -/
theorem epsilon_substitution_spec (ps : List ℚ) (h : ∀ p ∈ ps, 0 ≤ p) :
    (substituteZeroProbs ps).length = ps.length ∧
    (∀ i, i < ps.length →
      (substituteZeroProbs ps).getD i 0
        = if ps.getD i 0 = 0 then 1 / 10 ^ 30 else ps.getD i 0) ∧
    (∀ q ∈ substituteZeroProbs ps, 0 < q) := by
  refine ⟨by simp [substituteZeroProbs], ?_, ?_⟩
  · intro i hi
    have hi' : i < (substituteZeroProbs ps).length := by
      simpa [substituteZeroProbs] using hi
    rw [List.getD_eq_getElem _ _ hi', List.getD_eq_getElem _ _ hi]
    simp [substituteZeroProbs]
  · intro q hq
    simp only [substituteZeroProbs, List.mem_map] at hq
    obtain ⟨p, hp, rfl⟩ := hq
    by_cases hp0 : p = 0
    · rw [if_pos hp0]; positivity
    · rw [if_neg hp0]
      exact lt_of_le_of_ne (h p hp) (Ne.symm hp0)

/-- Witness for C9 at `ps = [0, 1/2]` (nonnegativity discharged): the
substituted zero probability `1e-30` is strictly positive. -/
theorem epsilon_substitution_spec_witness :
    0 < ((1 : ℚ) / 10 ^ 30) :=
  (epsilon_substitution_spec [0, 1 / 2] (by norm_num)).2.2 (1 / 10 ^ 30)
    (by norm_num [substituteZeroProbs])

/-! ## `soft_update` (`misc/utils.py`)

Raises `ValueError` when the two variable sequences differ in length (the check
precedes every assignment, so no target is modified in that case); otherwise
assigns `target[i] := (1 - tau) * target[i] + tau * source[i]` for every `i`. -/

/-- `soft_update` from `misc/utils.py`; the error branch returns before any
assignment, so the targets are unmodified there. -/
def soft_update (source_vars target_vars : List ℚ) (tau : ℚ) : Except String (List ℚ) :=
  if source_vars.length ≠ target_vars.length then
    Except.error "source_vars and target_vars must have the same length."
  else
    Except.ok (List.zipWith (fun source target => (1 - tau) * target + tau * source)
      source_vars target_vars)

theorem zipWith_getD (f : ℚ → ℚ → ℚ) (s t : List ℚ) (h : s.length = t.length)
    (i : ℕ) (hi : i < t.length) :
    (List.zipWith f s t).getD i 0 = f (s.getD i 0) (t.getD i 0) := by
  induction s generalizing t i with
  | nil => rw [← h] at hi; simp at hi
  | cons x xs ih =>
      cases t with
      | nil => simp at hi
      | cons y ys =>
          cases i with
          | zero => simp
          | succ j =>
              simp only [List.zipWith_cons_cons, List.getD_cons_succ]
              exact ih ys (by simpa using h) j (by simpa using hi)

/-- C10: `soft_update` errors exactly when the variable sequences differ in
length (and then no target is modified: the error is returned before any
assignment); with equal lengths it returns the sequence whose `i`-th entry is
`(1 - tau)·target[i] + tau·source[i]`. -/
theorem soft_update_spec (source_vars target_vars : List ℚ) (tau : ℚ) :
    (soft_update source_vars target_vars tau
        = Except.error "source_vars and target_vars must have the same length."
      ↔ source_vars.length ≠ target_vars.length) ∧
    (source_vars.length = target_vars.length →
      ∃ out, soft_update source_vars target_vars tau = Except.ok out ∧
        out.length = target_vars.length ∧
        ∀ i, i < target_vars.length →
          out.getD i 0
            = (1 - tau) * target_vars.getD i 0 + tau * source_vars.getD i 0) := by
  constructor
  · by_cases hlen : source_vars.length = target_vars.length
    · simp [soft_update, hlen]
    · simp [soft_update, hlen]
  · intro hlen
    have hne : ¬source_vars.length ≠ target_vars.length := by simp [hlen]
    refine ⟨List.zipWith (fun source target => (1 - tau) * target + tau * source)
      source_vars target_vars, ?_, ?_, ?_⟩
    · rw [soft_update, if_neg hne]
    · simp [List.length_zipWith, hlen]
    · intro i hi
      exact zipWith_getD _ source_vars target_vars hlen i hi

/-- Witness for C10: on length-mismatched inputs `[1]`, `[]` the error branch
is taken (the iff's hypothesis discharged at a concrete input). -/
theorem soft_update_spec_witness :
    soft_update [1] [] 0
      = Except.error "source_vars and target_vars must have the same length." :=
  (soft_update_spec [1] [] 0).1.mpr (by decide)

/-! ## Trajectory collection

Two collectors exist in the source: `A3CThread.get_trajectory` (`agents/a3c.py`,
lines 252-281), which clips each reward with `np.clip(reward, -1, 1)` before
appending it, and `EnvRunner.get_steps` (`agents/env_runner.py`, lines 45-80),
which appends the raw environment reward unclipped.  Both are embedded against
a deterministic environment-plus-policy model; only the recorded reward
sequence is tracked, since the claims are about it. -/

/-- A deterministic environment with its driving policy: `reset` is the state
`env.reset()` returns, `policy` is `choose_action`, and `step s a` is
`env.step(a)` at state `s`, returning (new state, reward, done). -/
structure EnvModel (σ α : Type) where
  reset : σ
  policy : σ → α
  step : σ → α → σ × ℚ × Bool

/-- Rewards recorded by `A3CThread.get_trajectory`: loop at most
`episode_max_length` times; each reward is `np.clip(reward, -1, 1)` before
being appended, and the loop breaks after appending when `done`. -/
def a3cTrajectoryRewards (E : EnvModel σ α) : ℕ → σ → List ℚ
  | 0, _ => []
  | n + 1, s =>
    let res := E.step s (E.policy s)
    let rc := clip_by_value res.2.1 (-1) 1
    if res.2.2 then [rc] else rc :: a3cTrajectoryRewards E n res.1

/-- Rewards recorded by the loop body of `EnvRunner.get_steps`: the raw reward
`rew` is appended (`memory.add(self.state, action, rew, ...)` — no clipping);
on `done` the environment is reset and, if `stop_at_trajectory_end`, the loop
breaks, else collection continues from the reset state. -/
def envRunnerSteps (E : EnvModel σ α) (stop_at_trajectory_end : Bool) :
    ℕ → σ → List ℚ
  | 0, _ => []
  | n + 1, s =>
    let res := E.step s (E.policy s)
    res.2.1 ::
      (if res.2.2 then
        (if stop_at_trajectory_end then []
         else envRunnerSteps E stop_at_trajectory_end n E.reset)
      else envRunnerSteps E stop_at_trajectory_end n res.1)

/-- `EnvRunner.get_steps(n_steps, reset, stop_at_trajectory_end, render)`:
if `reset`, collection starts from the freshly reset state, else from the
runner's current state `cur`. -/
def get_steps (E : EnvModel σ α) (cur : σ) (n_steps : ℕ)
    (reset stop_at_trajectory_end render : Bool) : List ℚ :=
  envRunnerSteps E stop_at_trajectory_end n_steps (if reset then E.reset else cur)

/-- `EnvRunner.get_trajectory(stop_at_trajectory_end, render)` forwards
`self.get_steps(self.config["episode_max_length"], stop_at_trajectory_end,
render)` — both flags are passed **positionally**, so they land in the `reset`
and `stop_at_trajectory_end` slots of `get_steps`, and `render` there keeps its
default `False`. -/
def get_trajectory (E : EnvModel σ α) (cur : σ) (episode_max_length : ℕ)
    (stop_at_trajectory_end render : Bool) : List ℚ :=
  get_steps E cur episode_max_length stop_at_trajectory_end render false

theorem clip_unit_mem (x : ℚ) :
    -1 ≤ clip_by_value x (-1) 1 ∧ clip_by_value x (-1) 1 ≤ 1 :=
  ⟨le_min (le_max_right x (-1)) (by norm_num), min_le_right _ _⟩

/-- A one-state environment whose reward is always 2 and which never reports
termination; used to exhibit an unclipped recorded reward. -/
def constRewardTwoEnv : EnvModel Unit Unit :=
  ⟨(), fun _ => (), fun _ _ => ((), 2, false)⟩

/-- C5 counterexample: `EnvRunner.get_steps` records the raw environment reward,
so an environment emitting reward 2 yields a recorded reward outside `[-1, 1]`. -/
theorem env_runner_unclipped_counterexample :
    get_steps constRewardTwoEnv () 1 true true false = [2] ∧ ¬((2 : ℚ) ≤ 1) :=
  ⟨rfl, by norm_num⟩

/-- C5 (amended): every reward recorded by `A3CThread.get_trajectory` lies in
`[-1, 1]` — the raw reward is clipped before being appended.  (`EnvRunner.get_steps`
records the raw reward unclipped.) -/
theorem a3c_reward_clipping_spec (σ α : Type) (E : EnvModel σ α) (n : ℕ) (s : σ) :
    ∀ r ∈ a3cTrajectoryRewards E n s, -1 ≤ r ∧ r ≤ 1 := by
  induction n generalizing s with
  | zero => intro r hr; simp [a3cTrajectoryRewards] at hr
  | succ m ih =>
      intro r hr
      simp only [a3cTrajectoryRewards] at hr
      split at hr
      · simp only [List.mem_singleton] at hr
        rw [hr]; exact clip_unit_mem _
      · simp only [List.mem_cons] at hr
        rcases hr with h | h
        · rw [h]; exact clip_unit_mem _
        · exact ih _ r h

/-- Witness for C5 (amended): the single reward that `A3CThread.get_trajectory`
records against `constRewardTwoEnv` is within the bounds. -/
theorem a3c_reward_clipping_spec_witness :
    -1 ≤ clip_by_value 2 (-1) 1 ∧ clip_by_value 2 (-1) 1 ≤ 1 :=
  a3c_reward_clipping_spec Unit Unit constRewardTwoEnv 1 ()
    (clip_by_value 2 (-1) 1) (by decide)

theorem envRunnerSteps_no_stop_length (E : EnvModel σ α) (n : ℕ) (s : σ) :
    (envRunnerSteps E false n s).length = n := by
  induction n generalizing s with
  | zero => rfl
  | succ m ih =>
      simp only [envRunnerSteps, List.length_cons]
      split <;> simp [ih]

/-- C6: `get_trajectory` forwards its two arguments positionally into the
`reset` and `stop_at_trajectory_end` slots of `get_steps` (with `render`
keeping its default `False`); hence with default arguments it resets the
environment first (the result does not depend on the runner's current state)
and keeps collecting across episode boundaries for the full
`episode_max_length` steps instead of stopping at the first episode end. -/
theorem get_trajectory_argument_shift (σ α : Type) (E : EnvModel σ α) (cur : σ)
    (n : ℕ) (stop_at_trajectory_end render : Bool) :
    get_trajectory E cur n stop_at_trajectory_end render
      = get_steps E cur n stop_at_trajectory_end render false ∧
    get_trajectory E cur n true false = envRunnerSteps E false n E.reset ∧
    (get_trajectory E cur n true false).length = n :=
  ⟨rfl, rfl, envRunnerSteps_no_stop_length E n E.reset⟩

/-! ## Batch accumulation (`agents/env_runner.py`, `EnvRunner.get_trajectories`)

`use_timesteps = (config["batch_update"] == "timesteps")`; the `while` guard is
`(use_timesteps and timesteps_total < timesteps_per_batch) or
 (not use_timesteps and i < trajectories_per_batch)`; the body appends one
trajectory and adds `len(trajectory.rewards)` to `timesteps_total`. -/

/-- The accumulated timestep total of a batch: the sum of the trajectories'
reward-sequence lengths. -/
def sumLen (ts : List (List ℚ)) : ℕ := (ts.map List.length).sum

/-- The `while` guard of `get_trajectories`. -/
def gtGuard (use_timesteps : Bool)
    (timesteps_per_batch trajectories_per_batch i timesteps_total : ℕ) : Bool :=
  (use_timesteps && decide (timesteps_total < timesteps_per_batch)) ||
  (!use_timesteps && decide (i < trajectories_per_batch))

/-- The `while` loop of `get_trajectories`.  `stream k` is the trajectory the
`(k+1)`-st call to `get_trajectory` returns (collection is deterministic in
this embedding), `i` counts calls made, `timesteps_total` the accumulated
timesteps, `acc` the trajectories appended so far.  `fuel` bounds the number of
further iterations; `none` means the loop is still running after `fuel`
iterations. -/
def gtLoop (stream : ℕ → List ℚ) (use_timesteps : Bool)
    (timesteps_per_batch trajectories_per_batch : ℕ) :
    ℕ → ℕ → ℕ → List (List ℚ) → Option (List (List ℚ))
  | 0, i, total, acc =>
      if gtGuard use_timesteps timesteps_per_batch trajectories_per_batch i total
      then none else some acc
  | fuel + 1, i, total, acc =>
      if gtGuard use_timesteps timesteps_per_batch trajectories_per_batch i total then
        gtLoop stream use_timesteps timesteps_per_batch trajectories_per_batch fuel
          (i + 1) (total + (stream i).length) (acc ++ [stream i])
      else some acc

/-- `EnvRunner.get_trajectories`, run from the initial loop state
`i = 0`, `timesteps_total = 0`, `trajectories = []`. -/
def get_trajectories (stream : ℕ → List ℚ) (use_timesteps : Bool)
    (timesteps_per_batch trajectories_per_batch fuel : ℕ) : Option (List (List ℚ)) :=
  gtLoop stream use_timesteps timesteps_per_batch trajectories_per_batch fuel 0 0 []

theorem gtGuard_count_mode (tpb npb i total : ℕ) :
    gtGuard false tpb npb i total = decide (i < npb) := by
  simp [gtGuard]

theorem gtGuard_ts_mode (tpb npb i total : ℕ) :
    gtGuard true tpb npb i total = decide (total < tpb) := by
  simp [gtGuard]

theorem sumLen_append_singleton (a : List (List ℚ)) (t : List ℚ) :
    sumLen (a ++ [t]) = sumLen a + t.length := by
  simp [sumLen]

theorem gtLoop_count_mode_tpb_independent (stream : ℕ → List ℚ) (npb tpb tpb2 : ℕ) :
    ∀ fuel i total total2 acc,
      gtLoop stream false tpb npb fuel i total acc
        = gtLoop stream false tpb2 npb fuel i total2 acc := by
  intro fuel
  induction fuel with
  | zero => intro i total total2 acc; simp [gtLoop, gtGuard_count_mode]
  | succ m ih =>
      intro i total total2 acc
      simp only [gtLoop, gtGuard_count_mode]
      split
      · exact ih (i + 1) _ _ _
      · rfl

theorem gtLoop_ts_mode_npb_independent (stream : ℕ → List ℚ) (tpb npb npb2 : ℕ) :
    ∀ fuel i total acc,
      gtLoop stream true tpb npb fuel i total acc
        = gtLoop stream true tpb npb2 fuel i total acc := by
  intro fuel
  induction fuel with
  | zero => intro i total acc; simp [gtLoop, gtGuard_ts_mode]
  | succ m ih =>
      intro i total acc
      simp only [gtLoop, gtGuard_ts_mode]
      split
      · exact ih (i + 1) _ _
      · rfl

theorem gtLoop_count_mode_terminates (stream : ℕ → List ℚ) (tpb npb : ℕ) :
    ∀ fuel i total acc, i ≤ npb → npb - i ≤ fuel →
      ∃ out, gtLoop stream false tpb npb fuel i total acc = some out ∧
        out.length = acc.length + (npb - i) := by
  intro fuel
  induction fuel with
  | zero =>
      intro i total acc hle hfuel
      have hi : ¬i < npb := by omega
      refine ⟨acc, ?_, by omega⟩
      simp [gtLoop, gtGuard_count_mode, hi]
  | succ m ih =>
      intro i total acc hle hfuel
      by_cases hi : i < npb
      · obtain ⟨out, hout, hlen⟩ :=
          ih (i + 1) (total + (stream i).length) (acc ++ [stream i])
            (by omega) (by omega)
        refine ⟨out, ?_, ?_⟩
        · simpa [gtLoop, gtGuard_count_mode, hi] using hout
        · rw [hlen]; simp; omega
      · refine ⟨acc, ?_, by omega⟩
        simp [gtLoop, gtGuard_count_mode, hi]

theorem gtLoop_ts_mode_reaches (stream : ℕ → List ℚ) (tpb npb : ℕ) :
    ∀ fuel i total acc out,
      total = sumLen acc →
      (∀ k, k < acc.length → sumLen (acc.take k) < tpb) →
      gtLoop stream true tpb npb fuel i total acc = some out →
      tpb ≤ sumLen out ∧ ∀ k, k < out.length → sumLen (out.take k) < tpb := by
  intro fuel
  induction fuel with
  | zero =>
      intro i total acc out htot hpre hout
      by_cases htpb : total < tpb
      · simp [gtLoop, gtGuard_ts_mode, htpb] at hout
      · simp [gtLoop, gtGuard_ts_mode, htpb] at hout
        subst hout
        exact ⟨by omega, hpre⟩
  | succ m ih =>
      intro i total acc out htot hpre hout
      by_cases htpb : total < tpb
      · simp only [gtLoop, gtGuard_ts_mode, htpb, decide_eq_true_eq, if_pos] at hout
        refine ih (i + 1) (total + (stream i).length) (acc ++ [stream i]) out ?_ ?_ hout
        · rw [sumLen_append_singleton, htot]
        · intro k hk
          simp only [List.length_append, List.length_singleton] at hk
          by_cases hk' : k < acc.length
          · rw [List.take_append_of_le_length (by omega)]
            exact hpre k hk'
          · have hk'' : k = acc.length := by omega
            subst hk''
            rw [List.take_append_of_le_length le_rfl, List.take_length]
            omega
      · simp [gtLoop, gtGuard_ts_mode, htpb] at hout
        subst hout
        exact ⟨by omega, hpre⟩

theorem gtLoop_append_only (stream : ℕ → List ℚ) (use_timesteps : Bool) (tpb npb : ℕ) :
    ∀ fuel i total acc out,
      gtLoop stream use_timesteps tpb npb fuel i total acc = some out →
      ∃ rest, out = acc ++ rest := by
  intro fuel
  induction fuel with
  | zero =>
      intro i total acc out hout
      simp only [gtLoop] at hout
      split at hout
      · exact absurd hout (by simp)
      · exact ⟨[], by simpa using hout.symm⟩
  | succ m ih =>
      intro i total acc out hout
      simp only [gtLoop] at hout
      split at hout
      · obtain ⟨rest, hrest⟩ := ih (i + 1) _ _ out hout
        exact ⟨[stream i] ++ rest, by rw [hrest, List.append_assoc]⟩
      · exact ⟨[], by simpa using hout.symm⟩

/-- C7: `get_trajectories` selects exactly one of two modes. In count mode
(`batch_update ≠ "timesteps"`) it terminates with exactly
`trajectories_per_batch` trajectories and never consults `timesteps_per_batch`;
in timesteps mode it never consults `trajectories_per_batch` and, whenever it
returns, the accumulated timestep total (sum of reward-sequence lengths) has
just reached `timesteps_per_batch`: the final total is `≥` the threshold while
every proper prefix of the batch is still `<` it.  In both modes trajectories
are only appended, never removed: the accumulator is always a prefix of the
result. -/
theorem get_trajectories_spec (stream : ℕ → List ℚ)
    (timesteps_per_batch tpb2 trajectories_per_batch npb2 fuel : ℕ)
    (hfuel : trajectories_per_batch ≤ fuel) :
    (get_trajectories stream false timesteps_per_batch trajectories_per_batch fuel
      = get_trajectories stream false tpb2 trajectories_per_batch fuel) ∧
    (∃ out,
      get_trajectories stream false timesteps_per_batch trajectories_per_batch fuel
        = some out ∧ out.length = trajectories_per_batch) ∧
    (get_trajectories stream true timesteps_per_batch trajectories_per_batch fuel
      = get_trajectories stream true timesteps_per_batch npb2 fuel) ∧
    (∀ out,
      get_trajectories stream true timesteps_per_batch trajectories_per_batch fuel
        = some out →
      timesteps_per_batch ≤ sumLen out ∧
        ∀ k, k < out.length → sumLen (out.take k) < timesteps_per_batch) ∧
    (∀ (use_timesteps : Bool) (fuel2 i total : ℕ) (acc out : List (List ℚ)),
      gtLoop stream use_timesteps timesteps_per_batch trajectories_per_batch
          fuel2 i total acc = some out →
      ∃ rest, out = acc ++ rest) := by
  refine ⟨?_, ?_, ?_, ?_, ?_⟩
  · exact gtLoop_count_mode_tpb_independent stream trajectories_per_batch _ _ fuel 0 0 0 []
  · obtain ⟨out, hout, hlen⟩ :=
      gtLoop_count_mode_terminates stream timesteps_per_batch trajectories_per_batch
        fuel 0 0 [] (Nat.zero_le _) (by omega)
    exact ⟨out, hout, by simpa using hlen⟩
  · exact gtLoop_ts_mode_npb_independent stream timesteps_per_batch _ _ fuel 0 0 []
  · intro out hout
    exact gtLoop_ts_mode_reaches stream timesteps_per_batch trajectories_per_batch
      fuel 0 0 [] out rfl (by intro k hk; simp at hk) hout
  · intro use_timesteps fuel2 i total acc out hout
    exact gtLoop_append_only stream use_timesteps _ _ fuel2 i total acc out hout

/-- Witness for C7 (fuel bound discharged at `trajectories_per_batch = 2`,
`fuel = 2`): count mode ignores the timestep threshold. -/
theorem get_trajectories_spec_witness :
    get_trajectories (fun _ => [0]) false 5 2 2
      = get_trajectories (fun _ => [0]) false 7 2 2 :=
  (get_trajectories_spec (fun _ => [0]) 5 7 2 9 2 (by norm_num)).1

/-! ## Worker loop and cooperative shutdown (`agents/a3c.py`)

`A3CThread.run` is `while self.master.T < self.config["T_max"] and not
self.master.stop_requested: ...` — the guard is read once at the top of each
iteration; the body ends with one `train_op` (incrementing `global_step` once)
and `self.master.T += trajectory["steps"]`.  `A3C.signal_handler` sets
`stop_requested = True` and nothing ever clears it.  `A3C.learn` joins all
threads.  The threads are modelled as a labelled transition system: each worker
is idle (at the guard), running (inside an iteration) or terminated. -/

/-- Where a worker thread is in its `run` loop. -/
inductive WorkerPhase
  | idle
  | running
  | terminated
  deriving DecidableEq

/-- The state shared through the master: the environment-steps counter `T`,
the optimizer-update counter `global_step`, the shutdown flag and each worker
thread's phase. -/
structure A3CSystem (n : ℕ) where
  T : ℕ
  global_step : ℕ
  stop_requested : Bool
  phase : Fin n → WorkerPhase

/-- One atomic event of the training run with step-count target `T_max`:
a worker passes the loop guard and enters an iteration; a worker finishes an
iteration (one `global_step` increment, `T` advanced by the trajectory's step
count); a worker whose guard fails leaves its loop; or the interrupt handler
sets the shutdown flag. -/
inductive A3CEvent (n T_max : ℕ) : A3CSystem n → A3CSystem n → Prop
  | enter_iteration (s : A3CSystem n) (i : Fin n) :
      s.phase i = WorkerPhase.idle →
      s.T < T_max →
      s.stop_requested = false →
      A3CEvent n T_max s { s with phase := Function.update s.phase i WorkerPhase.running }
  | finish_iteration (s : A3CSystem n) (i : Fin n) (steps : ℕ) :
      s.phase i = WorkerPhase.running →
      A3CEvent n T_max s
        { T := s.T + steps,
          global_step := s.global_step + 1,
          stop_requested := s.stop_requested,
          phase := Function.update s.phase i WorkerPhase.idle }
  | leave_loop (s : A3CSystem n) (i : Fin n) :
      s.phase i = WorkerPhase.idle →
      ¬(s.T < T_max ∧ s.stop_requested = false) →
      A3CEvent n T_max s { s with phase := Function.update s.phase i WorkerPhase.terminated }
  | request_stop (s : A3CSystem n) :
      A3CEvent n T_max s { s with stop_requested := true }

/-- C3: (1) a worker enters an iteration only when `T < T_max` and no shutdown
is requested (the guard, checked at the top of the loop); (2) the shutdown
flag, once set, stays set; (3) a worker that is mid-iteration when shutdown is
requested can always complete that iteration; (4) once every worker has
terminated (as after `learn()` joins them all), no event changes `T`,
`global_step` or any phase — the counters are stable. -/
theorem a3c_shutdown_spec (n T_max : ℕ) :
    (∀ s s2 : A3CSystem n, A3CEvent n T_max s s2 → ∀ i : Fin n,
      s.phase i ≠ WorkerPhase.running → s2.phase i = WorkerPhase.running →
      s.T < T_max ∧ s.stop_requested = false) ∧
    (∀ s s2 : A3CSystem n, A3CEvent n T_max s s2 →
      s.stop_requested = true → s2.stop_requested = true) ∧
    (∀ (s : A3CSystem n) (i : Fin n) (steps : ℕ),
      s.phase i = WorkerPhase.running →
      A3CEvent n T_max s
        { T := s.T + steps,
          global_step := s.global_step + 1,
          stop_requested := s.stop_requested,
          phase := Function.update s.phase i WorkerPhase.idle }) ∧
    (∀ s s2 : A3CSystem n, A3CEvent n T_max s s2 →
      (∀ i : Fin n, s.phase i = WorkerPhase.terminated) →
      s2.T = s.T ∧ s2.global_step = s.global_step ∧ s2.phase = s.phase) := by
  refine ⟨?_, ?_, ?_, ?_⟩
  · intro s s2 hstep i hnotrun hrun
    cases hstep with
    | enter_iteration j hidle hT hstop =>
        exact ⟨hT, hstop⟩
    | finish_iteration j steps hrunj =>
        by_cases hij : i = j
        · subst hij
          simp [Function.update_same] at hrun
        · simp only [Function.update_noteq hij] at hrun
          exact absurd hrun hnotrun
    | leave_loop j hidle hguard =>
        by_cases hij : i = j
        · subst hij
          simp [Function.update_same] at hrun
        · simp only [Function.update_noteq hij] at hrun
          exact absurd hrun hnotrun
    | request_stop =>
        exact absurd hrun hnotrun
  · intro s s2 hstep hstop
    cases hstep with
    | enter_iteration j hidle hT hstop2 => rw [hstop] at hstop2; cases hstop2
    | finish_iteration j steps hrunj => exact hstop
    | leave_loop j hidle hguard => exact hstop
    | request_stop => rfl
  · intro s i steps hrun
    exact A3CEvent.finish_iteration s i steps hrun
  · intro s s2 hstep hterm
    cases hstep with
    | enter_iteration j hidle hT hstop =>
        rw [hterm j] at hidle; cases hidle
    | finish_iteration j steps hrunj =>
        rw [hterm j] at hrunj; cases hrunj
    | leave_loop j hidle hguard =>
        rw [hterm j] at hidle; cases hidle
    | request_stop =>
        exact ⟨rfl, rfl, rfl⟩

/-- Witness for C3: a concrete in-flight iteration (one worker, shutdown
already requested) completes, advancing `T` by its step count and
`global_step` by one. -/
theorem a3c_shutdown_spec_witness :
    A3CEvent 1 3
      ⟨0, 0, true, fun _ => WorkerPhase.running⟩
      ⟨0 + 2, 0 + 1, true,
        Function.update (fun _ => WorkerPhase.running) 0 WorkerPhase.idle⟩ :=
  (a3c_shutdown_spec 1 3).2.2.1 ⟨0, 0, true, fun _ => WorkerPhase.running⟩ 0 2 rfl

end DeepRL
